import Mathlib

/-!
Verification of the markup-driven source transformation engine in
`src/tools/mst.ts`.  File contents are modelled as lists of characters
(`Str`); JavaScript string and array operations used by the source are
embedded as executable Lean functions, and the `@mst` directive rewriters
(`removeCurrentLine`, `removeNextLine`, `removeBlock`,
`patchMSTObserverBlock`, `sanitize`, `update`) are translated from the
source.  Recursions of the source that are not structurally terminating
(`removeBlock`, the observer-block rewrite, regex scans) are embedded with
explicit fuel; `none` / the fuel-exhausted branch corresponds to a
non-terminating run of the JavaScript original.
-/

set_option maxRecDepth 100000

/-- File contents / strings are modelled as lists of characters. -/
abbrev Str := List Char

/-- JS `String.prototype.includes`: `strIncludes s sub` is true iff `sub`
occurs as a contiguous substring of `s`. -/
def strIncludes : Str → Str → Bool
  | s, sub =>
    if sub.isPrefixOf s then true
    else
      match s with
      | [] => false
      | _ :: t => strIncludes t sub

/-- JS `contents.split("\n")`: split on newline; always returns at least one
(possibly empty) piece. -/
def splitOnNl : Str → List Str
  | [] => [[]]
  | c :: rest =>
    match splitOnNl rest with
    | [] => [[]]
    | f :: more => if c = '\n' then [] :: f :: more else (c :: f) :: more

/-- JS `lines.join("\n")`. -/
def joinNl : List Str → Str
  | [] => []
  | [l] => l
  | l :: ls => l ++ '\n' :: joinNl ls

/-! ### Directive markers (`CommentType` in `src/tools/mst.ts`) -/

/-- Marker `@mst remove-file`. -/
def REMOVE_FILE : Str := "@mst remove-file".toList

/-- Marker `@mst remove-current-line`. -/
def REMOVE_CURRENT_LINE : Str := "@mst remove-current-line".toList

/-- Marker `@mst remove-next-line`. -/
def REMOVE_NEXT_LINE : Str := "@mst remove-next-line".toList

/-- Marker `@mst remove-block-start`. -/
def REMOVE_BLOCK_START : Str := "@mst remove-block-start".toList

/-- Marker `@mst remove-block-end`. -/
def REMOVE_BLOCK_END : Str := "@mst remove-block-end".toList

/-- Marker `@mst observer-block-start`. -/
def OBSERVER_BLOCK_START : Str := "@mst observer-block-start".toList

/-- Marker `@mst observer-block-end`. -/
def OBSERVER_BLOCK_END : Str := "@mst observer-block-end".toList

/-! ### The combined markup regex `mstMarkupRegex`

`export const mstMarkupRegex = /(\/\/|#)\s*@mst.*|{?\/.*@mst.*\/}?/gm`

The two alternatives are embedded as deterministic match functions that
compute, at a given position (the head of the remaining suffix), the
substring the JavaScript backtracking engine would consume there, together
with the rest of the string.  The `m` flag only affects `^`/`$`, which do
not occur; the `g` flag is the left-to-right scan `scanSanF` below. -/

/-- JS regex `\s` character class (ECMAScript WhiteSpace and LineTerminator). -/
def isJsWs (c : Char) : Bool :=
  c == ' ' || c == '\t' || c == '\n' || c == '\r' || c == '\x0b' || c == '\x0c' ||
  c == '\u00A0' || c == '\u1680' || ('\u2000' ≤ c && c ≤ '\u200A') ||
  c == '\u2028' || c == '\u2029' || c == '\u202F' || c == '\u205F' ||
  c == '\u3000' || c == '\uFEFF'

/-- JS regex `.` without the `s` flag: any character except a line terminator. -/
def isDotChar (c : Char) : Bool :=
  !(c == '\n' || c == '\r' || c == '\u2028' || c == '\u2029')

/-- The literal `@mst` occurring in both alternatives of `mstMarkupRegex`. -/
def atMstTok : Str := "@mst".toList

/-- Match of the first alternative `(\/\/|#)\s*@mst.*` at the head of `s`:
a `//` or `#` head, greedy whitespace (which may include newlines), the
literal `@mst`, then `.*` up to the end of the line.  Returns
`(consumed, rest)`.  The greedy `\s*` is deterministic here because `@` is
not whitespace, so only the maximal whitespace run can be followed by the
literal `@mst`. -/
def matchA1core (head r : Str) : Option (Str × Str) :=
  let w := r.takeWhile isJsWs
  let r2 := r.dropWhile isJsWs
  if atMstTok.isPrefixOf r2 then
    let r3 := r2.drop atMstTok.length
    let d := r3.takeWhile isDotChar
    some (head ++ w ++ atMstTok ++ d, r3.dropWhile isDotChar)
  else none

/-- Dispatch on the `(\/\/|#)` head of the first alternative. -/
def matchA1 : Str → Option (Str × Str)
  | '/' :: '/' :: r => matchA1core ['/', '/'] r
  | '#' :: r => matchA1core ['#'] r
  | _ => none

/-- Largest index `i < L.length` with `L[i] = '/'` and the literal `@mst`
occurring inside `L.take i`; this is where the backtracking of
`.*@mst.*\/` in the second alternative ends up (first `.*` is greedy, so
the last viable `@mst` is used, then the last `/` after it, which is
exactly the last `/` preceded somewhere by `@mst`). -/
def lastValidSlashAux (L : Str) : Nat → Option Nat
  | 0 => none
  | i + 1 =>
    if L.getD i ' ' == '/' && strIncludes (L.take i) atMstTok then some i
    else lastValidSlashAux L i

/-- Entry point of `lastValidSlashAux`, scanning from the end of `L`. -/
def lastValidSlash (L : Str) : Option Nat :=
  lastValidSlashAux L L.length

/-- Match of the body `.*@mst.*\/}?` of the second alternative after its
`{?\/` head: all of it lies inside the maximal `.`-run `L`; the match ends
at the last viable `/`, plus an immediately following `}` if present
(greedy `}?`; `}` is itself a `.` character, so it suffices to look inside
`L`). -/
def matchA2body (pre r : Str) : Option (Str × Str) :=
  let L := r.takeWhile isDotChar
  match lastValidSlash L with
  | none => none
  | some i =>
    let bl := if L.getD (i + 1) ' ' == '\x7d' then i + 2 else i + 1
    some (pre ++ r.take bl, r.drop bl)

/-- Match of the second alternative `{?\/.*@mst.*\/}?` at the head of `s`.
The optional `{` is greedy; when it is taken the next character must be
`/`, and if the body then fails the fallback without `{` also fails
(because the first character is `{`, not `/`), so the dispatch below is
deterministic. -/
def matchA2 : Str → Option (Str × Str)
  | '\x7b' :: '/' :: r => matchA2body ['\x7b', '/'] r
  | '/' :: r => matchA2body ['/'] r
  | _ => none

/-- Match of `mstMarkupRegex` at the head of `s`: ordered alternation, the
first alternative is tried first. -/
def matchAtMst (s : Str) : Option (Str × Str) :=
  match matchA1 s with
  | some r => some r
  | none => matchA2 s

/-- Left-to-right global scan of JS `String.prototype.replace(re, "")` with
a `g`-flagged regex: successive non-overlapping matches found in the
original string are dropped, all other characters are kept in order.  The
fuel argument only serves structural termination; every match consumes at
least one character, so fuel equal to the string length never runs out. -/
def scanSanF : Nat → Str → Str
  | 0, s => s
  | fuel + 1, s =>
    match s with
    | [] => []
    | c :: t =>
      match matchAtMst (c :: t) with
      | some (_, rest) => scanSanF fuel rest
      | none => c :: scanSanF fuel t

/-- `sanitize` from `src/tools/mst.ts`:
`const result = contents.replace(mstMarkupRegex, "")`. -/
def sanitize (contents : Str) : Str :=
  scanSanF contents.length contents

/-- Existence of a `mstMarkupRegex` match anywhere in `s`. -/
def hasMstMatch : Str → Bool
  | [] => false
  | c :: t => (matchAtMst (c :: t)).isSome || hasMstMatch t

/-! ### Line rewriters -/

/-- `removeCurrentLine` from `src/tools/mst.ts`: split into lines, drop every
line containing the `REMOVE_CURRENT_LINE` marker, rejoin. -/
def removeCurrentLine (contents : Str) : Str :=
  let lines := splitOnNl contents
  let result := lines.filter (fun line => !(strIncludes line REMOVE_CURRENT_LINE))
  joinNl result

/-- JS `Array.prototype.filter` with the `(element, index)` callback,
running index `i` along the list. -/
def filterIdxGo (f : Nat → α → Bool) : Nat → List α → List α
  | _, [] => []
  | i, x :: xs =>
    if f i x then x :: filterIdxGo f (i + 1) xs else filterIdxGo f (i + 1) xs

/-- JS `Array.prototype.filter` with element and index. -/
def filterIdx (f : Nat → α → Bool) (l : List α) : List α :=
  filterIdxGo f 0 l

/-- The filter callback of `removeNextLine`: at index `0` only the current
line is examined; otherwise `prevLine = lines[index - 1]` (which exists for
`index ≥ 1`) must not contain the marker either.  (The JS code also reads
`lines[index - 1]` at index `0`, obtaining `undefined`, but that value is
unused because of the early `return preserveCurrent`.) -/
def keepLineNext (lines : List Str) (index : Nat) (line : Str) : Bool :=
  let preserveCurrent := strIncludes line REMOVE_NEXT_LINE == false
  if index = 0 then preserveCurrent
  else
    match lines.get? (index - 1) with
    | none => false
    | some prevLine =>
      preserveCurrent && (strIncludes prevLine REMOVE_NEXT_LINE == false)

/-- `removeNextLine` from `src/tools/mst.ts`: a line is kept only if neither
it nor its predecessor contains the `REMOVE_NEXT_LINE` marker. -/
def removeNextLine (contents : Str) : Str :=
  let lines := splitOnNl contents
  let result := filterIdx (keepLineNext lines) lines
  joinNl result

/-- Specification-side recursion for `removeNextLine` (§4.4 of the spec):
walk the lines carrying the previous line; keep a line iff it does not
contain the marker and the previous line (when one exists) does not either. -/
def removeNextSpec (prev : Option Str) : List Str → List Str
  | [] => []
  | l :: ls =>
    let keep := !(strIncludes l REMOVE_NEXT_LINE) &&
      (match prev with
       | none => true
       | some p => !(strIncludes p REMOVE_NEXT_LINE))
    if keep then l :: removeNextSpec (some l) ls else removeNextSpec (some l) ls

/-! ### `removeBlock` -/

/-- JS `Array.prototype.findIndex`: index of the first element satisfying
`p` (`none` models the JS result `-1`). -/
def jsFindIndex (p : α → Bool) : List α → Option Nat
  | [] => none
  | a :: l => if p a then some 0 else (jsFindIndex p l).map (· + 1)

/-- The `findIndex` helper of `removeBlock`: first line containing `c`. -/
def findIndexInc (lines : List Str) (c : Str) : Option Nat :=
  jsFindIndex (fun line => strIncludes line c) lines

/-- JS `lines.splice(start, deleteCount)` restricted to what `removeBlock`
uses: removes `deleteCount` elements from index `start`; a negative
`deleteCount` removes nothing (ECMAScript clamps it to `0`). -/
def spliceRemove (lines : List Str) (start : Nat) (deleteCount : Int) : List Str :=
  lines.take start ++ lines.drop (start + deleteCount.toNat)

/-- One pass of `removeBlock`: find the first line containing the start
marker and the first line containing the end marker (each searched from the
top); if both exist, splice out `blockEndIndex - blockStartIndex + 1` lines
from the start index.  When the end index precedes the start index the
delete count is `≤ 0` and nothing is removed. -/
def removeBlockStep (lines : List Str) : List Str :=
  match findIndexInc lines REMOVE_BLOCK_START, findIndexInc lines REMOVE_BLOCK_END with
  | some blockStartIndex, some blockEndIndex =>
    spliceRemove lines blockStartIndex ((blockEndIndex : Int) - blockStartIndex + 1)
  | _, _ => lines

/-- The `anotherBlockExists` test of `removeBlock`: both markers are found
in the (possibly spliced) line list. -/
def bothFound (lines : List Str) : Bool :=
  (findIndexInc lines REMOVE_BLOCK_START).isSome &&
    (findIndexInc lines REMOVE_BLOCK_END).isSome

/-- `removeBlock` from `src/tools/mst.ts` with explicit fuel: split into
lines, do one splice pass, rejoin, and recurse while both markers are still
present.  `none` means the fuel ran out, which (for fuel exceeding the line
count) happens exactly when the JS recursion never terminates. -/
def removeBlockFuel : Nat → Str → Option Str
  | 0, _ => none
  | fuel + 1, contents =>
    let lines := splitOnNl contents
    let lines2 := removeBlockStep lines
    let updateContents := joinNl lines2
    if bothFound lines2 then removeBlockFuel fuel updateContents
    else some updateContents

/-- Number of lines of a content string. -/
def numLines (contents : Str) : Nat :=
  (splitOnNl contents).length

/-- `removeBlock` run with sufficient fuel: every terminating run of the JS
recursion removes at least one line per recursive call, so line count plus
one calls always suffice; `none` therefore means the JS function diverges. -/
def removeBlockRun (contents : Str) : Option Str :=
  removeBlockFuel (numLines contents + 1) contents

/-- Divergence of the JS `removeBlock` recursion on `contents`: no amount
of fuel produces a result. -/
def removeBlockDiverges (contents : Str) : Prop :=
  ∀ fuel, removeBlockFuel fuel contents = none

/-- Iterated `removeBlockStep`, used to state the stage invariant below. -/
def stepIter : Nat → List Str → List Str
  | 0, l => l
  | k + 1, l => stepIter k (removeBlockStep l)

/-- A stage is good when, if both markers are found, the first start-marker
line is at or before the first end-marker line (so the splice removes at
least one line). -/
def goodStage (lines : List Str) : Bool :=
  match findIndexInc lines REMOVE_BLOCK_START, findIndexInc lines REMOVE_BLOCK_END with
  | some s, some e => s ≤ e
  | _, _ => true

/-- Decidable invariant: every stage the recursion of `removeBlock` can
reach from `contents` (there are at most `numLines + 1` of them) is good. -/
def removeBlockInv (contents : Str) : Bool :=
  decide (∀ k, k ≤ numLines contents → goodStage (stepIter k (splitOnNl contents)) = true)

/-! ### `patchMSTObserverBlock`

The two regexes built in the source are

`startBlockRegex`:
`//\s*@mst observer-block-start\n(export\s+)?const\s+(\w+)(:\s*[\w<>,\s]+)?\s*=\s*observer\(function\s+(\w+)(\([^)]*\))`
with replacement `$1const $2$3 = $5 =>`, and

`endBlockRegex`: `\}\)\s*//\s*@mst observer-block-end` with replacement `}`.

They are embedded as match functions at a position, driven by the same
left-to-right global-replace scan as the markup regex. -/

/-- JS regex `\w` character class. -/
def isWordChar (c : Char) : Bool :=
  c.isAlphanum || c == '_'

/-- Character class `[\w<>,\s]` of the optional type-annotation group. -/
def isAnnChar (c : Char) : Bool :=
  isWordChar c || c == '<' || c == '>' || c == ',' || isJsWs c

/-- Strip a literal prefix, returning the rest on success. -/
def stripLit (pre s : Str) : Option Str :=
  if pre.isPrefixOf s then some (s.drop pre.length) else none

/-- Continuation of the start regex after the optional type-annotation
group: `\s*=\s*observer\(function\s+(\w+)(\([^)]*\))`.  Returns the
parameter-list capture `$5` and the rest of the string.  Each greedy piece
here is deterministic because the character that must follow it cannot
occur in the quantified class. -/
def obsContEq (t : Str) : Option (Str × Str) :=
  match stripLit "=".toList (t.dropWhile isJsWs) with
  | none => none
  | some t2 =>
    match stripLit "observer(function".toList (t2.dropWhile isJsWs) with
    | none => none
    | some t4 =>
      let w3 := t4.takeWhile isJsWs
      if w3.isEmpty then none
      else
        let t5 := t4.dropWhile isJsWs
        let inner := t5.takeWhile isWordChar
        if inner.isEmpty then none
        else
          match t5.dropWhile isWordChar with
          | '(' :: t6 =>
            let ps := t6.takeWhile (fun c => c != ')')
            match t6.dropWhile (fun c => c != ')') with
            | ')' :: rest => some ('(' :: ps ++ [')'], rest)
            | _ => none
          | _ => none

/-- Backtracking over the greedy annotation run `[\w<>,\s]+`: try the
longest candidate length first, shrinking until the continuation matches
(JS tries the greediest split first). -/
def obsTryAnn (afterColon : Str) : Nat → Option (Nat × Str × Str)
  | 0 => none
  | k + 1 =>
    match obsContEq (afterColon.drop (k + 1)) with
    | some r => some (k + 1, r)
    | none => obsTryAnn afterColon k

/-- Match of `startBlockRegex` at the head of `s`.  Returns the replacement
text `$1const $2$3 = $5 =>` already assembled from the captures, together
with the rest of the string. -/
def matchStartObsAt (s : Str) : Option (Str × Str) :=
  match stripLit "//".toList s with
  | none => none
  | some r1 =>
    match stripLit OBSERVER_BLOCK_START (r1.dropWhile isJsWs) with
    | none => none
    | some r3 =>
      match stripLit "\n".toList r3 with
      | none => none
      | some r4 =>
        -- `(export\s+)?`: greedy; if `export` + whitespace is present the
        -- fallback without the group cannot match `const` (the text starts
        -- with `e`), so the choice is deterministic.
        let exp :=
          match stripLit "export".toList r4 with
          | none => none
          | some ra =>
            let w := ra.takeWhile isJsWs
            if w.isEmpty then none else some ("export".toList ++ w, ra.dropWhile isJsWs)
        let g1 := (exp.map Prod.fst).getD []
        let r5 := (exp.map Prod.snd).getD r4
        match stripLit "const".toList r5 with
        | none => none
        | some r6 =>
          let w2 := r6.takeWhile isJsWs
          if w2.isEmpty then none
          else
            let r7 := r6.dropWhile isJsWs
            let g2 := r7.takeWhile isWordChar
            if g2.isEmpty then none
            else
              let r8 := r7.dropWhile isWordChar
              let ann :=
                match r8 with
                | ':' :: r9 => obsTryAnn r9 (r9.takeWhile isAnnChar).length
                | _ => none
              let g3 :=
                match r8, ann with
                | ':' :: r9, some (k, _) => ':' :: r9.take k
                | _, _ => []
              let cont :=
                match ann with
                | some (_, res) => some res
                | none => obsContEq r8
              match cont with
              | none => none
              | some (g5, rest) =>
                some (g1 ++ "const ".toList ++ g2 ++ g3 ++ " = ".toList ++ g5 ++
                  " =>".toList, rest)

/-- Match of `endBlockRegex` (`\}\)\s*//\s*@mst observer-block-end`) at the
head of `s`, returning the replacement `}` and the rest. -/
def matchEndObsAt (s : Str) : Option (Str × Str) :=
  match stripLit "\x7d)".toList s with
  | none => none
  | some r =>
    match stripLit "//".toList (r.dropWhile isJsWs) with
    | none => none
    | some r3 =>
      match stripLit OBSERVER_BLOCK_END (r3.dropWhile isJsWs) with
      | none => none
      | some rest => some ("\x7d".toList, rest)

/-- Left-to-right global replace scan (JS `String.prototype.replace` with a
`g` regex and a replacement template): the matcher returns the already
assembled replacement and the rest.  Fuel only serves structural
termination; matches always consume at least one character. -/
def replScanF (m : Str → Option (Str × Str)) : Nat → Str → Str
  | 0, s => s
  | fuel + 1, s =>
    match s with
    | [] => []
    | c :: t =>
      match m (c :: t) with
      | some (repl, rest) => repl ++ replScanF m fuel rest
      | none => c :: replScanF m fuel t

/-- Existence of a match of `m` anywhere in `s` (JS `String.prototype.match`
with a `g` regex is non-null iff some position matches). -/
def hasMatchAny (m : Str → Option (Str × Str)) : Str → Bool
  | [] => false
  | c :: t => (m (c :: t)).isSome || hasMatchAny m t

/-- The `hasObserverBlock` test of `patchMSTObserverBlock`:
`value.match(startBlockRegex) && value.match(endBlockRegex)`. -/
def hasObserverBlock (value : Str) : Bool :=
  hasMatchAny matchStartObsAt value && hasMatchAny matchEndObsAt value

/-- `patchMSTObserverBlock` from `src/tools/mst.ts`, with explicit fuel for
its apply-until-no-match recursion: if no observer block is recognised the
content is returned unchanged; otherwise both global replaces run and the
function recurses while `hasObserverBlock` still holds. -/
def patchMSTObserverBlockF : Nat → Str → Str
  | 0, contents => contents
  | fuel + 1, contents =>
    if !(hasObserverBlock contents) then contents
    else
      let u1 := replScanF matchStartObsAt contents.length contents
      let u2 := replScanF matchEndObsAt u1.length u1
      if hasObserverBlock u2 then patchMSTObserverBlockF fuel u2 else u2

/-- `patchMSTObserverBlock` with fuel bounded by the content length. -/
def patchMSTObserverBlock (contents : Str) : Str :=
  patchMSTObserverBlockF (contents.length + 1) contents

/-! ### `remove` and the batch orchestrator -/

/-- `remove` from `src/tools/mst.ts`:
`removeBlock(removeNextLine(removeCurrentLine(contents)))` followed by
`patchMSTObserverBlock`; `none` when the inner `removeBlock` diverges. -/
def removeF (contents : Str) : Option Str :=
  match removeBlockRun (removeNextLine (removeCurrentLine contents)) with
  | none => none
  | some result => some (patchMSTObserverBlock result)

/-- The comment types handed by `mst.update` to the generic `updateFiles`. -/
def mstCommentTypes : List Str :=
  [REMOVE_CURRENT_LINE, REMOVE_NEXT_LINE, REMOVE_BLOCK_START, REMOVE_BLOCK_END,
    REMOVE_FILE]

/-- The `operations` list of the dead per-file loop in `mst.update`. -/
def mstOperations : List Str :=
  [REMOVE_CURRENT_LINE, REMOVE_NEXT_LINE, REMOVE_BLOCK_START, REMOVE_BLOCK_END,
    OBSERVER_BLOCK_START, OBSERVER_BLOCK_END]

/-- A file system is a finite association of paths to contents. -/
abbrev FileSys := List (String × Str)

/-- Overwrite the entry of `path` (files are written in place). -/
def fsWrite (fs : FileSys) (path : String) (c : Str) : FileSys :=
  fs.map (fun e => if e.1 = path then (path, c) else e)

/-- Delete the entry of `path`. -/
def fsErase (fs : FileSys) (path : String) : FileSys :=
  fs.filter (fun e => e.1 != path)

/-- Modelled from the spec: the per-file step of `updateFiles`
(`src/tools/markup.ts`, imported by `mst.ts` but not present under `src/`),
following §4.7 and §4.9 of the spec: if the content contains the
`REMOVE_FILE` marker, only that directive is reported and the file is
deleted (remove mode) or rewritten with `sanitize` (sanitize mode), no
other rewriter running; otherwise the found directives are reported and the
fixed-order rewriters (or the sanitizer) are applied.  Dry runs mutate
nothing; an unreadable path is reported with no directives and no change. -/
def processFile (fs : FileSys) (path : String) (dryRun onlyMarkup : Bool) :
    (String × List Str) × FileSys :=
  match fs.lookup path with
  | none => ((path, []), fs)
  | some contents =>
    if strIncludes contents REMOVE_FILE then
      ((path, [REMOVE_FILE]),
        if dryRun then fs
        else if onlyMarkup then fsWrite fs path (sanitize contents)
        else fsErase fs path)
    else
      let found := mstCommentTypes.filter (fun m => strIncludes contents m)
      ((path, found),
        if dryRun || found.isEmpty then fs
        else if onlyMarkup then fsWrite fs path (sanitize contents)
        else
          match removeF contents with
          | some r => fsWrite fs path r
          | none => fs)

/-- Modelled from the spec: `updateFiles` of `src/tools/markup.ts` (not
present under `src/`), folding the per-file step over the given paths and
returning the per-path report of directive kinds together with the
resulting file system. -/
def updateFilesModel (fs : FileSys) : List String → Bool → Bool →
    List (String × List Str) × FileSys
  | [], _, _ => ([], fs)
  | p :: ps, dryRun, onlyMarkup =>
    let pr := processFile fs p dryRun onlyMarkup
    let rest := updateFilesModel pr.2 ps dryRun onlyMarkup
    (pr.1 :: rest.1, rest.2)

/-- The helper functions of `mst.ts` that the body of `update` can invoke. -/
inductive MstCall where
  | updateFilesCall
  | sanitizeCall
  | removeCall
  | patchObserverCall
deriving DecidableEq

/-- State threaded through the model of `update`: the file system and the
log of helper invocations. -/
structure UpdSt where
  fs : FileSys
  calls : List MstCall
deriving DecidableEq

/-- Result value of `update` (both the early `return updateFiles(...)` and
the unreachable `return mstCommentResults` produce a per-path report). -/
abbrev UpdRet := List (String × List Str)

/-- Monad for the body of `update`: a TypeScript `return` is modelled as a
`throw`, so statements after it never execute. -/
abbrev UpdM := ExceptT UpdRet (StateM UpdSt)

/-- Record an invocation of one of the `mst` helpers. -/
def logCall (c : MstCall) : UpdM Unit :=
  modify (fun s => { s with calls := s.calls ++ [c] })

/-- `filesystem.read` / `patching.exists` content access. -/
def fsReadM (path : String) : UpdM (Option Str) := do
  pure ((← get).fs.lookup path)

/-- `filesystem.write`. -/
def fsWriteM (path : String) (c : Str) : UpdM Unit :=
  modify (fun s => { s with fs := fsWrite s.fs path c })

/-- `filesystem.remove`. -/
def fsRemoveM (path : String) : UpdM Unit :=
  modify (fun s => { s with fs := fsErase s.fs path })

/-- The `shouldUpdate` test of the dead per-file loop:
`onlyMarkup ? mstMarkupRegex : RegExp(operations.join("|"), "g")`. -/
def shouldUpdateTest (onlyMarkup : Bool) (contents : Str) : Bool :=
  if onlyMarkup then hasMstMatch contents
  else mstOperations.any (fun m => strIncludes contents m)

/-- Body of `update` from `src/tools/mst.ts`.  The first statement is
`return updateFiles({...})`, which ends the function; everything after it
(the `Promise.allSettled` per-file loop, modelled sequentially since the
per-file tasks are independent) is translated faithfully below the `throw`
and can never run. -/
def updateGo (filePaths : List String) (dryRun onlyMarkup : Bool) : UpdM Unit := do
  let st ← get
  let pr := updateFilesModel st.fs filePaths dryRun onlyMarkup
  modify (fun s => { s with fs := pr.2 })
  logCall MstCall.updateFilesCall
  throw pr.1
  -- unreachable from here on (dead code after the `return` above)
  let results ← filePaths.mapM (fun path => do
    let contents? ← fsReadM path
    let contents := contents?.getD []
    if strIncludes contents REMOVE_FILE then do
      if !dryRun then
        if onlyMarkup then do
          logCall MstCall.sanitizeCall
          fsWriteM path (sanitize contents)
        else fsRemoveM path
      pure (path, [REMOVE_FILE])
    else do
      if shouldUpdateTest onlyMarkup contents then do
        let comments := mstOperations.filter (fun op => strIncludes contents op)
        if !dryRun then
          if onlyMarkup then do
            logCall MstCall.sanitizeCall
            fsWriteM path (sanitize contents)
          else do
            logCall MstCall.removeCall
            -- `mst.remove` itself invokes `patchMSTObserverBlock`
            logCall MstCall.patchObserverCall
            match removeF contents with
            | some r => fsWriteM path r
            | none => pure ()
        pure (path, comments)
      else pure (path, []))
  throw results

/-- `update` from `src/tools/mst.ts`, run on an initial file system with an
empty invocation log. -/
def update (fs0 : FileSys) (filePaths : List String) (dryRun onlyMarkup : Bool) :
    Except UpdRet Unit × UpdSt :=
  (updateGo filePaths dryRun onlyMarkup).run.run ⟨fs0, []⟩

/-! ### Spec-side predicates and concrete contents used by the claims -/

/-- Lines free of both block markers. -/
def noBlockMark (ls : List Str) : Bool :=
  ls.all (fun l =>
    !(strIncludes l REMOVE_BLOCK_START) && !(strIncludes l REMOVE_BLOCK_END))

/-- A line containing the block-start marker but not the block-end marker. -/
def startLine (l : Str) : Bool :=
  strIncludes l REMOVE_BLOCK_START && !(strIncludes l REMOVE_BLOCK_END)

/-- A line containing the block-end marker but not the block-start marker. -/
def endLine (l : Str) : Bool :=
  strIncludes l REMOVE_BLOCK_END && !(strIncludes l REMOVE_BLOCK_START)

/-- The first end-marker line strictly precedes the first start-marker line
(both present). -/
def endBeforeStart (lines : List Str) : Bool :=
  match findIndexInc lines REMOVE_BLOCK_START, findIndexInc lines REMOVE_BLOCK_END with
  | some s, some e => e < s
  | _, _ => false

/-- Characterisation of the global-replace scan: `SanitizeRel s u` holds
iff `u` arises from `s` by walking left to right, dropping exactly the
pattern matches (leftmost, non-overlapping) and keeping every other
character in its original order. -/
inductive SanitizeRel : Str → Str → Prop where
  | nil : SanitizeRel [] []
  | keep (c : Char) (t u : Str) : matchAtMst (c :: t) = none →
      SanitizeRel t u → SanitizeRel (c :: t) (c :: u)
  | strip (s con rest u : Str) : matchAtMst s = some (con, rest) →
      SanitizeRel rest u → SanitizeRel s u

/-- Content whose block-end marker line precedes its block-start marker
line; `removeBlock` splices nothing here and re-scans the same content. -/
def endBeforeStartContent : Str :=
  "// @mst remove-block-end\n// @mst remove-block-start".toList

/-- Variant of `endBeforeStartContent` with surrounding lines: an end
marker with no preceding unmatched start (its start comes after it). -/
def endBeforeStartContent2 : Str :=
  "a\n// @mst remove-block-end\nb\n// @mst remove-block-start\nc".toList

/-- The five-line example of the spec: `x`, START, `y`, END, `z`. -/
def fiveLineBlockContent : Str :=
  "x\n// @mst remove-block-start\ny\n// @mst remove-block-end\nz".toList

/-- Content with two disjoint start/end pairs. -/
def twoBlockContent : Str :=
  ("x\nS // @mst remove-block-start\ny\nE // @mst remove-block-end\nz\n" ++
    "S2 // @mst remove-block-start\nw\nE2 // @mst remove-block-end\nu").toList

/-- A well-formed single block used as a termination witness. -/
def singleBlockContent : Str :=
  "keep\n// @mst remove-block-start\ndrop\n// @mst remove-block-end\ntail".toList

/-- Content with a block-start marker and no block-end marker. -/
def startOnlyContent : Str :=
  "a\n// @mst remove-block-start\nb".toList

/-- The observer-block example of the spec (claim C3): marker line,
declaration with type annotation `React.FC<Props>`, body, closing line. -/
def obsTypedContent : Str :=
  ("// @mst observer-block-start\nexport const Foo: React.FC<Props> = " ++
    "observer(function Foo(props) \x7b\n  return null\n\x7d) // @mst observer-block-end").toList

/-- The output the spec claims for `obsTypedContent`. -/
def obsTypedExpected : Str :=
  "export const Foo: React.FC<Props> = (props) => \x7b\n  return null\n\x7d".toList

/-- The same shape with the dot-free annotation `FC<Props>`, which the
start regex does match. -/
def obsNoDotContent : Str :=
  ("// @mst observer-block-start\nexport const Foo: FC<Props> = " ++
    "observer(function Foo(props) \x7b\n  return null\n\x7d) // @mst observer-block-end").toList

/-- Adversarial `sanitize` input: the single match `/u@mst v/` is removed
and its flanks `# @m` and `st` join up to the fresh directive `# @mst`. -/
def seamContent : Str := "# @m/u@mst v/st".toList

/-- Adversarial `sanitize` input whose match spans a newline: `\s*` after
`#` consumes the line break before `@mst`. -/
def newlineSpanContent : Str := "#\n@mst x\ny".toList

/-- The three-line remove-next-line example of the spec. -/
def nextLineExample : Str := "a // @mst remove-next-line\nb\nc".toList

/-- Sanitize witness content: ordinary directive usage. -/
def plainDirectiveContent : Str := "a // @mst remove-current-line\nb".toList

/-! ## Theorems

First the infrastructure lemmas about the string model, then one theorem
per claim (with witnesses and counterexamples). -/

theorem strIncludes_spec (s sub : Str) : strIncludes s sub = true ↔ sub <:+: s := by
  induction s with
  | nil =>
    rw [strIncludes]
    constructor
    · intro h
      have : sub.isPrefixOf ([] : Str) = true := by
        by_contra hip
        simp [Bool.not_eq_true] at hip
        simp [hip] at h
      exact List.IsPrefix.isInfix (List.isPrefixOf_iff_prefix.mp this)
    · intro h
      have : sub = [] := List.eq_nil_of_infix_nil h
      simp [this, List.isPrefixOf_iff_prefix]
  | cons c t ih =>
    rw [strIncludes]
    constructor
    · intro h
      by_cases hip : sub.isPrefixOf (c :: t) = true
      · exact List.IsPrefix.isInfix (List.isPrefixOf_iff_prefix.mp hip)
      · simp [Bool.not_eq_true] at hip
        simp [hip] at h
        exact (ih.mp h).trans (List.suffix_cons c t).isInfix
    · intro h
      rcases List.infix_cons_iff.mp h with hp | hi
      · simp [ List.isPrefixOf_iff_prefix.mpr hp]
      · by_cases hip : sub.isPrefixOf (c :: t) = true
        · simp [hip]
        · simp [Bool.not_eq_true] at hip
          simp [hip]
          exact ih.mpr hi

theorem splitOnNl_ne_nil (s : Str) : splitOnNl s ≠ [] := by
  cases s with
  | nil => simp [splitOnNl]
  | cons c rest =>
    rw [splitOnNl]
    rcases h : splitOnNl rest with _ | ⟨f, more⟩
    · simp
    · by_cases hc : c = '\n' <;> simp [hc]

theorem joinNl_splitOnNl (s : Str) : joinNl (splitOnNl s) = s := by
  induction s with
  | nil => rfl
  | cons c rest ih =>
    rw [splitOnNl]
    rcases h : splitOnNl rest with _ | ⟨f, more⟩
    · exact absurd h (splitOnNl_ne_nil rest)
    · rw [h] at ih
      by_cases hc : c = '\n'
      · subst hc
        simpa [joinNl] using ih
      · simp only [if_neg hc]
        cases more with
        | nil => simpa [joinNl] using ih
        | cons g more2 => simpa [joinNl] using ih

theorem no_nl_mem_splitOnNl (s : Str) (l : Str) (hl : l ∈ splitOnNl s) : '\n' ∉ l := by
  induction s generalizing l with
  | nil =>
    simp [splitOnNl] at hl
    simp [hl]
  | cons c rest ih =>
    rw [splitOnNl] at hl
    rcases h : splitOnNl rest with _ | ⟨f, more⟩
    · exact absurd h (splitOnNl_ne_nil rest)
    · rw [h] at hl
      by_cases hc : c = '\n'
      · simp [hc] at hl
        rcases hl with hl | hl | hl
        · simp [hl]
        · exact ih l (by rw [h]; simp [hl])
        · exact ih l (by rw [h]; simp [hl])
      · simp [hc] at hl
        rcases hl with hl | hl
        · subst hl
          intro hmem
          rcases List.mem_cons.mp hmem with h1 | h1
          · exact hc h1.symm
          · exact ih f (by rw [h]; simp) h1
        · exact ih l (by rw [h]; simp [hl])

theorem splitOnNl_append_nl (l r : Str) (hl : '\n' ∉ l) :
    splitOnNl (l ++ '\n' :: r) = l :: splitOnNl r := by
  induction l with
  | nil =>
    simp only [List.nil_append]
    rw [splitOnNl]
    rcases h : splitOnNl r with _ | ⟨f, more⟩
    · exact absurd h (splitOnNl_ne_nil r)
    · simp
  | cons c l2 ih =>
    have hc : c ≠ '\n' := fun hh => hl (by simp [hh])
    have hl2 : '\n' ∉ l2 := fun hh => hl (by simp [hh])
    simp only [List.cons_append]
    rw [splitOnNl, ih hl2]
    simp [hc]

theorem splitOnNl_no_nl (l : Str) (h0 : '\n' ∉ l) : splitOnNl l = [l] := by
  induction l with
  | nil => rfl
  | cons c t iht =>
    have hc : c ≠ '\n' := fun hh => h0 (by simp [hh])
    have ht : '\n' ∉ t := fun hh => h0 (by simp [hh])
    rw [splitOnNl, iht ht]
    simp [hc]

theorem splitOnNl_joinNl (ls : List Str) (hne : ls ≠ [])
    (hl : ∀ l ∈ ls, '\n' ∉ l) : splitOnNl (joinNl ls) = ls := by
  induction ls with
  | nil => exact absurd rfl hne
  | cons l ls2 ih =>
    cases ls2 with
    | nil => exact splitOnNl_no_nl l (hl l (by simp))
    | cons m ls3 =>
      have hj : joinNl (l :: m :: ls3) = l ++ '\n' :: joinNl (m :: ls3) := rfl
      rw [hj, splitOnNl_append_nl l _ (hl l (by simp))]
      rw [ih (by simp) (fun x hx => hl x (by simp [hx]))]

theorem prefix_append_cons {sub a b : Str} {m : Char} (h : sub <+: a ++ m :: b) :
    sub <+: a ∨ m ∈ sub := by
  induction a generalizing sub with
  | nil =>
    cases sub with
    | nil => exact Or.inl List.nil_prefix
    | cons x s2 =>
      simp only [List.nil_append] at h
      rcases List.cons_prefix_cons.mp h with ⟨hx, _⟩
      exact Or.inr (by simp [hx])
  | cons c a2 ih =>
    cases sub with
    | nil => exact Or.inl List.nil_prefix
    | cons x s2 =>
      simp only [List.cons_append] at h
      rcases List.cons_prefix_cons.mp h with ⟨hx, hs⟩
      rcases ih hs with h1 | h1
      · exact Or.inl (List.cons_prefix_cons.mpr ⟨hx, h1⟩)
      · exact Or.inr (by simp [h1])

theorem infix_append_cons {sub a b : Str} {m : Char} (h : sub <:+: a ++ m :: b) :
    sub <:+: a ∨ sub <:+: b ∨ m ∈ sub := by
  induction a generalizing sub with
  | nil =>
    simp only [List.nil_append] at h
    rcases List.infix_cons_iff.mp h with hp | hi
    · cases sub with
      | nil => exact Or.inr (Or.inl List.nil_infix)
      | cons x s2 =>
        rcases List.cons_prefix_cons.mp hp with ⟨hx, _⟩
        exact Or.inr (Or.inr (by simp [hx]))
    · exact Or.inr (Or.inl hi)
  | cons c a2 ih =>
    simp only [List.cons_append] at h
    rcases List.infix_cons_iff.mp h with hp | hi
    · rcases prefix_append_cons (a := c :: a2) (by simpa using hp) with h1 | h1
      · exact Or.inl h1.isInfix
      · exact Or.inr (Or.inr h1)
    · rcases ih hi with h1 | h1
      · exact Or.inl (h1.trans (List.suffix_cons c a2).isInfix)
      · exact Or.inr h1

theorem not_infix_joinNl {sub : Str} (hne : sub ≠ []) (hnl : '\n' ∉ sub)
    {ls : List Str} (hls : ∀ l ∈ ls, ¬ sub <:+: l) : ¬ sub <:+: joinNl ls := by
  induction ls with
  | nil =>
    intro h
    exact hne (List.eq_nil_of_infix_nil h)
  | cons l ls2 ih =>
    cases ls2 with
    | nil =>
      exact hls l (by simp)
    | cons m ls3 =>
      intro h
      have hj : joinNl (l :: m :: ls3) = l ++ '\n' :: joinNl (m :: ls3) := rfl
      rw [hj] at h
      rcases infix_append_cons h with h1 | h1 | h1
      · exact hls l (by simp) h1
      · exact ih (fun x hx => hls x (by simp [hx])) h1
      · exact hnl h1

/-! ### Claim C7: `removeCurrentLine` is a stable filter -/

/-- C7: for every content, `removeCurrentLine` outputs exactly the input
lines that do not contain the `@mst remove-current-line` marker, preserved
verbatim and in their original relative order (a sublist of the input
lines), rejoined with the newline separator, and the output string never
contains the marker substring. -/
theorem removeCurrentLine_stable_filter (contents : Str) :
    removeCurrentLine contents =
      joinNl ((splitOnNl contents).filter
        (fun l => !(strIncludes l REMOVE_CURRENT_LINE))) ∧
    ((splitOnNl contents).filter
        (fun l => !(strIncludes l REMOVE_CURRENT_LINE))).Sublist (splitOnNl contents) ∧
    strIncludes (removeCurrentLine contents) REMOVE_CURRENT_LINE = false := by
  refine ⟨rfl, List.filter_sublist _, ?_⟩
  have hne : REMOVE_CURRENT_LINE ≠ ([] : Str) := by decide
  have hnl : '\n' ∉ REMOVE_CURRENT_LINE := by decide
  have hkept : ∀ l ∈ (splitOnNl contents).filter
      (fun l => !(strIncludes l REMOVE_CURRENT_LINE)),
      ¬ REMOVE_CURRENT_LINE <:+: l := by
    intro l hlmem
    have := (List.mem_filter.mp hlmem).2
    simp only [Bool.not_eq_true'] at this
    intro hinf
    rw [(strIncludes_spec l REMOVE_CURRENT_LINE).mpr hinf] at this
    exact Bool.true_eq_false.mp this
  have hout := not_infix_joinNl hne hnl hkept
  rw [← strIncludes_spec] at hout
  exact Bool.not_eq_true _ ▸ (by simpa using hout)

/-! ### Claim C5: `removeNextLine` keeps a line iff neither it nor its
predecessor carries the marker -/

theorem get?_append_length (pre : List Str) (x : Str) (rest : List Str) :
    (pre ++ x :: rest).get? pre.length = some x := by
  induction pre with
  | nil => rfl
  | cons p pre2 ih => simpa using ih

theorem filterIdxGo_next_aux (rest : List Str) :
    ∀ (pre : List Str) (prev : Str) (lines : List Str),
      lines = pre ++ prev :: rest →
      filterIdxGo (keepLineNext lines) (pre.length + 1) rest =
        removeNextSpec (some prev) rest := by
  induction rest with
  | nil => intro pre prev lines _; rfl
  | cons l rest2 ih =>
    intro pre prev lines hlines
    have hkeep : keepLineNext lines (pre.length + 1) l =
        (!(strIncludes l REMOVE_NEXT_LINE) &&
          !(strIncludes prev REMOVE_NEXT_LINE)) := by
      have hget : lines.get? (pre.length + 1 - 1) = some prev := by
        rw [hlines]
        exact get?_append_length pre prev (l :: rest2)
      rw [keepLineNext, if_neg (Nat.succ_ne_zero pre.length), hget]
      cases hsl : strIncludes l REMOVE_NEXT_LINE <;>
        cases hsp : strIncludes prev REMOVE_NEXT_LINE <;> simp [hsl, hsp]
    have hnext := ih (pre ++ [prev]) l lines (by simpa using hlines)
    have hlen : (pre ++ [prev]).length + 1 = pre.length + 1 + 1 := by simp
    rw [hlen] at hnext
    rw [filterIdxGo, hkeep, hnext]
    simp only [removeNextSpec]

/-- C5: `removeNextLine` keeps a line if and only if the line does not
contain the `@mst remove-next-line` marker and the immediately preceding
line (when one exists) does not contain it, the first line being judged
only by the first condition (this is the recursion `removeNextSpec`); in
particular the three-line example `a // @mst remove-next-line`, `b`, `c`
yields the single line `c`. -/
theorem removeNextLine_keeps_iff :
    (∀ contents : Str,
      removeNextLine contents =
        joinNl (removeNextSpec none (splitOnNl contents))) ∧
    removeNextLine nextLineExample = "c".toList := by
  constructor
  · intro contents
    rw [removeNextLine]
    rcases h : splitOnNl contents with _ | ⟨l0, rest⟩
    · rfl
    · show joinNl (filterIdx (keepLineNext (l0 :: rest)) (l0 :: rest)) = _
      have h0 : keepLineNext (l0 :: rest) 0 l0 =
          !(strIncludes l0 REMOVE_NEXT_LINE) := by
        rw [keepLineNext]
        cases strIncludes l0 REMOVE_NEXT_LINE <;> rfl
      have haux := filterIdxGo_next_aux rest [] l0 (l0 :: rest) rfl
      rw [filterIdx, filterIdxGo, h0, removeNextSpec]
      simp only [List.length_nil] at haux
      rw [haux]
      cases hb : !(strIncludes l0 REMOVE_NEXT_LINE) <;> simp [hb]
  · decide

/-! ### `removeBlock` infrastructure -/

theorem jsFindIndex_none_iff (p : α → Bool) (l : List α) :
    jsFindIndex p l = none ↔ ∀ x ∈ l, p x = false := by
  induction l with
  | nil => simp [jsFindIndex]
  | cons a l2 ih =>
    rw [jsFindIndex]
    by_cases ha : p a = true
    · simp [ha]
    · have ha' : p a = false := by simpa using ha
      simp [ha', ih]

theorem jsFindIndex_append_cons (p : α → Bool) (xs : List α) (y : α) (ys : List α)
    (hxs : ∀ x ∈ xs, p x = false) (hy : p y = true) :
    jsFindIndex p (xs ++ y :: ys) = some xs.length := by
  induction xs with
  | nil => simp [jsFindIndex, hy]
  | cons x xs2 ih =>
    have hx : p x = false := hxs x (by simp)
    rw [List.cons_append, jsFindIndex, hx]
    simp only [Bool.false_eq_true, if_false]
    rw [ih (fun z hz => hxs z (by simp [hz]))]
    simp

theorem jsFindIndex_some_lt (p : α → Bool) (l : List α) (i : Nat)
    (h : jsFindIndex p l = some i) : i < l.length := by
  induction l generalizing i with
  | nil => simp [jsFindIndex] at h
  | cons a l2 ih =>
    rw [jsFindIndex] at h
    by_cases ha : p a = true
    · simp [ha] at h
      simp [← h]
    · have ha' : p a = false := by simpa using ha
      simp [ha'] at h
      rcases h with ⟨j, hj, hji⟩
      have := ih j hj
      simp [← hji]
      omega

theorem drop_append_len (xs ys : List α) (k : Nat) :
    (xs ++ ys).drop (xs.length + k) = ys.drop k := by
  induction xs with
  | nil => simp
  | cons x xs2 ih => simp [Nat.succ_add, ih]

theorem removeBlockStep_id_of_not_both (lines : List Str)
    (h : bothFound lines = false) : removeBlockStep lines = lines := by
  rw [removeBlockStep]
  rw [bothFound] at h
  rcases hs : findIndexInc lines REMOVE_BLOCK_START with _ | s
  · rfl
  · rcases he : findIndexInc lines REMOVE_BLOCK_END with _ | e
    · rfl
    · rw [hs, he] at h
      simp at h

theorem mem_removeBlockStep (lines : List Str) (l : Str)
    (h : l ∈ removeBlockStep lines) : l ∈ lines := by
  rw [removeBlockStep] at h
  rcases hs : findIndexInc lines REMOVE_BLOCK_START with _ | s <;> rw [hs] at h
  · exact h
  · rcases he : findIndexInc lines REMOVE_BLOCK_END with _ | e <;> rw [he] at h
    · exact h
    · simp only [spliceRemove] at h
      rcases List.mem_append.mp h with h1 | h1
      · exact List.mem_of_mem_take h1
      · exact List.mem_of_mem_drop h1

theorem removeBlockFuel_succ (fuel : Nat) (contents : Str) :
    removeBlockFuel (fuel + 1) contents =
      (if bothFound (removeBlockStep (splitOnNl contents)) then
        removeBlockFuel fuel (joinNl (removeBlockStep (splitOnNl contents)))
      else some (joinNl (removeBlockStep (splitOnNl contents)))) := rfl

theorem diverges_of_fixed (c : Str)
    (hb : bothFound (splitOnNl c) = true)
    (hstep : removeBlockStep (splitOnNl c) = splitOnNl c) :
    removeBlockDiverges c := by
  intro fuel
  induction fuel with
  | zero => rfl
  | succ f ih =>
    rw [removeBlockFuel_succ, hstep, hb, joinNl_splitOnNl]
    simpa using ih

theorem step_id_of_endBeforeStart (lines : List Str)
    (h : endBeforeStart lines = true) :
    removeBlockStep lines = lines ∧ bothFound lines = true := by
  rw [endBeforeStart] at h
  rcases hs : findIndexInc lines REMOVE_BLOCK_START with _ | s <;> rw [hs] at h
  · simp at h
  · rcases he : findIndexInc lines REMOVE_BLOCK_END with _ | e <;> rw [he] at h
    · simp at h
    · have hlt : e < s := by simpa using h
      constructor
      · rw [removeBlockStep, hs, he]
        simp only [spliceRemove]
        have hz : ((e : Int) - s + 1).toNat = 0 := by
          apply Int.toNat_of_nonpos
          omega
        rw [hz]
        simp [List.take_append_drop]
      · rw [bothFound, hs, he]
        rfl

theorem diverges_of_endBeforeStart (c : Str)
    (h : endBeforeStart (splitOnNl c) = true) : removeBlockDiverges c := by
  obtain ⟨hstep, hb⟩ := step_id_of_endBeforeStart _ h
  exact diverges_of_fixed c hb hstep

theorem removeBlockFuel_lines_isSome :
    ∀ (fuel : Nat) (L : List Str), (∀ l ∈ L, '\n' ∉ l) → L ≠ [] →
      L.length + 1 ≤ fuel →
      (∀ k, k ≤ L.length → goodStage (stepIter k L) = true) →
      (removeBlockFuel fuel (joinNl L)).isSome = true := by
  intro fuel
  induction fuel with
  | zero => intro L _ _ hf _; omega
  | succ f ih =>
    intro L hnl hne hf hstages
    have hsplit : splitOnNl (joinNl L) = L := splitOnNl_joinNl L hne hnl
    rw [removeBlockFuel_succ, hsplit]
    by_cases hb : bothFound (removeBlockStep L) = true
    · rw [hb, if_pos rfl]
      have hbL : bothFound L = true := by
        by_contra h'
        have h'' : bothFound L = false := by simpa using h'
        rw [removeBlockStep_id_of_not_both L h''] at hb
        exact absurd hb (by simp [h''])
      rw [bothFound] at hbL
      rcases Bool.and_eq_true_iff.mp hbL with ⟨h1, h2⟩
      rcases Option.isSome_iff_exists.mp h1 with ⟨s, hs⟩
      rcases Option.isSome_iff_exists.mp h2 with ⟨e, he⟩
      have hse : s ≤ e := by
        have h0 := hstages 0 (Nat.zero_le _)
        rw [stepIter, goodStage, hs, he] at h0
        simpa using h0
      have helt : e < L.length := jsFindIndex_some_lt _ _ _ he
      have hstep : removeBlockStep L = L.take s ++ L.drop (e + 1) := by
        rw [removeBlockStep, hs, he]
        simp only [spliceRemove]
        have h3 : ((e : Int) - s + 1).toNat = e - s + 1 := by omega
        rw [h3]
        have h4 : s + (e - s + 1) = e + 1 := by omega
        rw [h4]
      have hlen : (removeBlockStep L).length < L.length := by
        rw [hstep]
        simp only [List.length_append, List.length_take, List.length_drop]
        omega
      apply ih
      · intro l hl
        exact hnl l (mem_removeBlockStep L l hl)
      · intro hnil
        rw [hnil, bothFound, findIndexInc] at hb
        simp [jsFindIndex] at hb
      · omega
      · intro k hk
        have hit : stepIter k (removeBlockStep L) = stepIter (k + 1) L := rfl
        rw [hit]
        exact hstages (k + 1) (by omega)
    · have hb' : bothFound (removeBlockStep L) = false := by simpa using hb
      rw [hb']
      simp

/-! ### Claim C1: termination of `removeBlock` -/

/-- C1 (counterexample): on the content whose block-end marker line
precedes its block-start marker line, the recursive call of `removeBlock`
neither strictly reduces the line count (the splice removes nothing and the
content is unchanged) nor fails to find a complete start/end pair, and the
recursion never reaches a result: `removeBlockFuel` returns `none` for
every amount of fuel. -/
theorem removeBlock_c1_counterexample :
    removeBlockStep (splitOnNl endBeforeStartContent2) =
        splitOnNl endBeforeStartContent2 ∧
    bothFound (splitOnNl endBeforeStartContent2) = true ∧
    removeBlockDiverges endBeforeStartContent2 := by
  refine ⟨by decide, by decide, ?_⟩
  exact diverges_of_endBeforeStart endBeforeStartContent2 (by decide)

/-- C1 (amended): `removeBlock` terminates on every content all of whose
reachable recursion stages find the first start-marker line at or before
the first end-marker line (`removeBlockInv`); each removal then strictly
reduces the line count, so fuel `numLines + 1` suffices.  (When a block-end
marker line precedes the block-start marker line, the recursion re-scans
unchanged content forever, as the counterexample shows.) -/
theorem removeBlock_terminates_of_ordered (c : Str)
    (h : removeBlockInv c = true) : (removeBlockRun c).isSome = true := by
  have hstages := of_decide_eq_true h
  have hres := removeBlockFuel_lines_isSome (numLines c + 1) (splitOnNl c)
    (fun l hl => no_nl_mem_splitOnNl c l hl) (splitOnNl_ne_nil c)
    (le_refl _) hstages
  rw [joinNl_splitOnNl] at hres
  exact hres

/-- Witness for `removeBlock_terminates_of_ordered` at a well-formed
single-block content. -/
theorem removeBlock_terminates_of_ordered_witness :
    removeBlockInv singleBlockContent = true ∧
      (removeBlockRun singleBlockContent).isSome = true :=
  ⟨by decide, removeBlock_terminates_of_ordered singleBlockContent (by decide)⟩

/-! ### Claim C2: malformed directive pairing -/

/-- C2 (counterexample): for the content consisting of a block-end marker
line followed by a block-start marker line (an end with no preceding
unmatched start), `removeBlock` does not return the content unchanged — it
does not return at all: every fuel bound yields `none`. -/
theorem removeBlock_malformed_counterexample :
    endBeforeStart (splitOnNl endBeforeStartContent) = true ∧
    removeBlockDiverges endBeforeStartContent := by
  refine ⟨by decide, ?_⟩
  exact diverges_of_endBeforeStart endBeforeStartContent (by decide)

/-- C2 (amended): when only one kind of block marker occurs (a start with
no end anywhere, or an end with no start anywhere) `removeBlock` removes no
block and returns the content unchanged; but when both markers occur and
the first end-marker line strictly precedes the first start-marker line,
`removeBlock` never returns. -/
theorem removeBlock_malformed_inert :
    (∀ c : Str, bothFound (splitOnNl c) = false → removeBlockRun c = some c) ∧
    (∀ c : Str, endBeforeStart (splitOnNl c) = true → removeBlockDiverges c) := by
  constructor
  · intro c hb
    rw [removeBlockRun]
    have h1 : numLines c + 1 = numLines c + 1 := rfl
    rw [removeBlockFuel_succ, removeBlockStep_id_of_not_both _ hb, hb]
    rw [joinNl_splitOnNl]
    simp
  · intro c h
    exact diverges_of_endBeforeStart c h

/-- Witness for `removeBlock_malformed_inert`: a start-only content is
returned unchanged, and the end-before-start content exhausts any fuel. -/
theorem removeBlock_malformed_inert_witness :
    removeBlockRun startOnlyContent = some startOnlyContent ∧
      removeBlockFuel 5 endBeforeStartContent = none :=
  ⟨removeBlock_malformed_inert.1 startOnlyContent (by decide),
    removeBlock_malformed_inert.2 endBeforeStartContent (by decide) 5⟩

/-! ### Claim C6: sequential block removal -/

theorem noBlockMark_start_false (X : List Str) (h : noBlockMark X = true) :
    ∀ l ∈ X, strIncludes l REMOVE_BLOCK_START = false := by
  intro l hl
  rw [noBlockMark] at h
  have := List.all_eq_true.mp h l hl
  rcases Bool.and_eq_true_iff.mp this with ⟨h1, _⟩
  simpa using h1

theorem noBlockMark_end_false (X : List Str) (h : noBlockMark X = true) :
    ∀ l ∈ X, strIncludes l REMOVE_BLOCK_END = false := by
  intro l hl
  rw [noBlockMark] at h
  have := List.all_eq_true.mp h l hl
  rcases Bool.and_eq_true_iff.mp this with ⟨_, h2⟩
  simpa using h2

theorem noBlockMark_append (X Y : List Str) (hx : noBlockMark X = true)
    (hy : noBlockMark Y = true) : noBlockMark (X ++ Y) = true := by
  rw [noBlockMark] at *
  rw [List.all_append, hx, hy]
  rfl

theorem findIndex_block_decomp (A B R : List Str) (s1 e1 : Str)
    (hA : noBlockMark A = true) (hB : noBlockMark B = true)
    (hs1 : startLine s1 = true) (he1 : endLine e1 = true) :
    findIndexInc (A ++ s1 :: (B ++ e1 :: R)) REMOVE_BLOCK_START = some A.length ∧
    findIndexInc (A ++ s1 :: (B ++ e1 :: R)) REMOVE_BLOCK_END =
      some (A.length + B.length + 1) := by
  rcases Bool.and_eq_true_iff.mp hs1 with ⟨hs1s, hs1e⟩
  rcases Bool.and_eq_true_iff.mp he1 with ⟨he1e, _⟩
  constructor
  · exact jsFindIndex_append_cons _ A s1 _ (noBlockMark_start_false A hA) hs1s
  · have heq : A ++ s1 :: (B ++ e1 :: R) = (A ++ s1 :: B) ++ e1 :: R := by simp
    rw [heq, findIndexInc,
      jsFindIndex_append_cons _ (A ++ s1 :: B) e1 R ?_ he1e]
    · simp [Nat.add_comm, Nat.add_assoc, Nat.add_left_comm]
    · intro x hx
      rcases List.mem_append.mp hx with h1 | h1
      · exact noBlockMark_end_false A hA x h1
      · rcases List.mem_cons.mp h1 with h2 | h2
        · subst h2
          simpa using hs1e
        · exact noBlockMark_end_false B hB x h2

theorem removeBlockStep_decomp (A B R : List Str) (s1 e1 : Str)
    (hA : noBlockMark A = true) (hB : noBlockMark B = true)
    (hs1 : startLine s1 = true) (he1 : endLine e1 = true) :
    removeBlockStep (A ++ s1 :: (B ++ e1 :: R)) = A ++ R := by
  obtain ⟨hfs, hfe⟩ := findIndex_block_decomp A B R s1 e1 hA hB hs1 he1
  rw [removeBlockStep, hfs, hfe]
  simp only [spliceRemove]
  have h3 : (((A.length + B.length + 1 : Nat) : Int) - (A.length : Nat) + 1).toNat =
      B.length + 2 := by omega
  rw [h3]
  have h4 : A.length + (B.length + 2) = A.length + (B.length + 1 + 1) := by omega
  rw [h4, drop_append_len A _ (B.length + 1 + 1), List.drop_succ_cons,
    drop_append_len B _ 1, List.drop_succ_cons, List.drop_zero,
    List.take_left]

/-- C6: `removeBlock` removes both of two disjoint, non-nested start/end
block ranges inclusively and leaves every surrounding line unchanged: for
any content whose lines decompose as
`A ++ [s1] ++ B ++ [e1] ++ C ++ [s2] ++ D ++ [e2] ++ E` with no marker in
`A`,`B`,`C`,`D`,`E`, the result is `A ++ C ++ E` rejoined; and for the
five-line content `x`, START, `y`, END, `z` the result is `x`,`z`. -/
theorem removeBlock_two_pairs :
    (∀ (c : Str) (A B Cs D Es : List Str) (s1 e1 s2 e2 : Str),
      splitOnNl c = A ++ s1 :: (B ++ e1 :: (Cs ++ s2 :: (D ++ e2 :: Es))) →
      noBlockMark A = true → noBlockMark B = true → noBlockMark Cs = true →
      noBlockMark D = true → noBlockMark Es = true →
      startLine s1 = true → endLine e1 = true →
      startLine s2 = true → endLine e2 = true →
      removeBlockRun c = some (joinNl (A ++ Cs ++ Es))) ∧
    removeBlockRun fiveLineBlockContent = some ("x\nz".toList) := by
  constructor
  · intro c A B Cs D Es s1 e1 s2 e2 hL hA hB hCs hD hEs hs1 he1 hs2 he2
    have hstep1 : removeBlockStep (splitOnNl c) =
        A ++ (Cs ++ s2 :: (D ++ e2 :: Es)) := by
      rw [hL]
      exact removeBlockStep_decomp A B _ s1 e1 hA hB hs1 he1
    have hM1 : A ++ (Cs ++ s2 :: (D ++ e2 :: Es)) =
        (A ++ Cs) ++ s2 :: (D ++ e2 :: Es) := by simp
    have hACs : noBlockMark (A ++ Cs) = true := noBlockMark_append A Cs hA hCs
    obtain ⟨hfs2, hfe2⟩ :=
      findIndex_block_decomp (A ++ Cs) D Es s2 e2 hACs hD hs2 he2
    have hbf2 : bothFound (A ++ (Cs ++ s2 :: (D ++ e2 :: Es))) = true := by
      rw [hM1, bothFound, hfs2, hfe2]
      rfl
    have hstep2 : removeBlockStep ((A ++ Cs) ++ s2 :: (D ++ e2 :: Es)) =
        (A ++ Cs) ++ Es :=
      removeBlockStep_decomp (A ++ Cs) D Es s2 e2 hACs hD hs2 he2
    have hbf3 : bothFound ((A ++ Cs) ++ Es) = false := by
      rw [bothFound, findIndexInc]
      have hnone : jsFindIndex (fun line => strIncludes line REMOVE_BLOCK_START)
          ((A ++ Cs) ++ Es) = none := by
        apply (jsFindIndex_none_iff _ _).mpr
        intro x hx
        rcases List.mem_append.mp hx with h1 | h1
        · exact noBlockMark_start_false _ hACs x h1
        · exact noBlockMark_start_false _ hEs x h1
      rw [hnone]
      rfl
    have hnl1 : ∀ l ∈ A ++ (Cs ++ s2 :: (D ++ e2 :: Es)), '\n' ∉ l := by
      intro l hl
      apply no_nl_mem_splitOnNl c
      rw [hL]
      simp only [List.mem_append, List.mem_cons] at hl ⊢
      tauto
    have hne1 : A ++ (Cs ++ s2 :: (D ++ e2 :: Es)) ≠ [] := by simp
    have hsplit2 := splitOnNl_joinNl _ hne1 hnl1
    have hnum : numLines c =
        (A.length + B.length + Cs.length + D.length + Es.length + 3) + 1 := by
      rw [numLines, hL]
      simp
      omega
    rw [removeBlockRun, hnum, removeBlockFuel_succ, hstep1, hbf2, if_pos rfl,
      removeBlockFuel_succ, hsplit2, hM1, hstep2, hbf3]
    simp
  · decide

/-- Witness for `removeBlock_two_pairs` at the concrete two-pair content. -/
theorem removeBlock_two_pairs_witness :
    removeBlockRun twoBlockContent = some ("x\nz\nu".toList) := by
  have h := removeBlock_two_pairs.1 twoBlockContent
    ["x".toList] ["y".toList] ["z".toList] ["w".toList] ["u".toList]
    "S // @mst remove-block-start".toList
    "E // @mst remove-block-end".toList
    "S2 // @mst remove-block-start".toList
    "E2 // @mst remove-block-end".toList
    (by decide) (by decide) (by decide) (by decide) (by decide) (by decide)
    (by decide) (by decide) (by decide) (by decide)
  rw [h]
  rfl

/-! ### Claim C3: the observer-block rewrite example -/

/-- C3 (counterexample): on the spec's example content (marker line,
`export const Foo: React.FC<Props> = observer(function Foo(props) {`, a
body line, and `}) // @mst observer-block-end`), `patchMSTObserverBlock`
does not produce the rewritten declaration the claim describes. -/
theorem patchObserver_typed_counterexample :
    patchMSTObserverBlock obsTypedContent ≠ obsTypedExpected := by decide

/-- C3 (amended): on that content the start regex finds no match at all —
its type-annotation class `[\w<>,\s]+` cannot match `React.FC<Props>`
because `.` is outside the class — so `hasObserverBlock` is false and
`patchMSTObserverBlock` returns the content unchanged. -/
theorem patchObserver_typed_unchanged :
    hasMatchAny matchStartObsAt obsTypedContent = false ∧
    patchMSTObserverBlock obsTypedContent = obsTypedContent := by decide

/-- Model evidence: with the dot-free annotation `FC<Props>` the start
regex does match and the wrapper is unwrapped (the greedy annotation group
captures the trailing space, leaving a double space before `=`). -/
theorem patchObserver_nodot_rewrites :
    patchMSTObserverBlock obsNoDotContent =
      ("export const Foo: FC<Props>  = (props) => \x7b\n  return null\n\x7d").toList := by
  decide

/-! ### Claims C4 and C9: `sanitize` -/

theorem matchA1core_split (head r con rest : Str) (hhead : head ≠ [])
    (h : matchA1core head r = some (con, rest)) :
    head ++ r = con ++ rest ∧ con ≠ [] ∧ atMstTok <:+: con := by
  rw [matchA1core] at h
  by_cases hp : atMstTok.isPrefixOf (r.dropWhile isJsWs) = true
  · rw [if_pos hp] at h
    simp only [Option.some.injEq, Prod.mk.injEq] at h
    obtain ⟨hc, hr⟩ := h
    subst hc
    subst hr
    refine ⟨?_, by simp [hhead], ?_⟩
    · have h2 : atMstTok ++ (r.dropWhile isJsWs).drop atMstTok.length =
          r.dropWhile isJsWs := by
        obtain ⟨t, ht⟩ := List.isPrefixOf_iff_prefix.mp hp
        rw [← ht, List.drop_left]
      simp only [List.append_assoc]
      rw [List.takeWhile_append_dropWhile, h2,
        List.takeWhile_append_dropWhile]
    · exact List.infix_append (head ++ r.takeWhile isJsWs) atMstTok _
  · rw [if_neg hp] at h
    cases h

theorem matchA1_split (s con rest : Str) (h : matchA1 s = some (con, rest)) :
    s = con ++ rest ∧ con ≠ [] ∧ atMstTok <:+: con := by
  rw [matchA1.eq_def] at h
  split at h
  · exact matchA1core_split _ _ con rest (by simp) h
  · exact matchA1core_split _ _ con rest (by simp) h
  · cases h

theorem lastValidSlashAux_spec (L : Str) :
    ∀ n i, lastValidSlashAux L n = some i →
      i < n ∧ strIncludes (L.take i) atMstTok = true := by
  intro n
  induction n with
  | zero => intro i h; cases h
  | succ m ih =>
    intro i h
    rw [lastValidSlashAux] at h
    by_cases hc : (L.getD m ' ' == '/' && strIncludes (L.take m) atMstTok) = true
    · rw [if_pos hc] at h
      injection h with h1
      subst h1
      exact ⟨Nat.lt_succ_self _, (Bool.and_eq_true_iff.mp hc).2⟩
    · rw [if_neg hc] at h
      have := ih i h
      exact ⟨Nat.lt_succ_of_lt this.1, this.2⟩

theorem take_take_le (r : Str) (i bl : Nat) (hle : i ≤ bl) :
    r.take i <+: r.take bl := by
  have h1 : (r.take bl).take i = r.take i := by
    rw [List.take_take]
    congr 1
    omega
  rw [← h1]
  exact List.take_prefix i (r.take bl)

theorem matchA2body_split (pre r con rest : Str) (hpre : pre ≠ [])
    (h : matchA2body pre r = some (con, rest)) :
    pre ++ r = con ++ rest ∧ con ≠ [] ∧ atMstTok <:+: con := by
  rw [matchA2body] at h
  cases hls : lastValidSlash (r.takeWhile isDotChar) with
  | none => rw [hls] at h; cases h
  | some i =>
    rw [hls] at h
    simp only [Option.some.injEq, Prod.mk.injEq] at h
    obtain ⟨hc, hr⟩ := h
    have hspec := lastValidSlashAux_spec (r.takeWhile isDotChar)
      (r.takeWhile isDotChar).length i hls
    have hiLt : i < (r.takeWhile isDotChar).length := hspec.1
    have hinc : atMstTok <:+: (r.takeWhile isDotChar).take i :=
      (strIncludes_spec _ _).mp hspec.2
    have htake_eq : (r.takeWhile isDotChar).take i = r.take i := by
      obtain ⟨t, ht⟩ := List.takeWhile_prefix isDotChar (l := r)
      conv_rhs => rw [← ht]
      rw [List.take_append_eq_append_take]
      have hz : i - (r.takeWhile isDotChar).length = 0 := by omega
      rw [hz]
      simp
    subst hc
    subst hr
    refine ⟨by rw [List.append_assoc, List.take_append_drop], by simp [hpre], ?_⟩
    have hble : i ≤ (if (r.takeWhile isDotChar).getD (i + 1) ' ' == '\x7d'
        then i + 2 else i + 1) := by
      split <;> omega
    have h6 : atMstTok <:+: r.take (if (r.takeWhile isDotChar).getD (i + 1) ' ' == '\x7d'
        then i + 2 else i + 1) := by
      rw [htake_eq] at hinc
      exact hinc.trans (take_take_le r i _ hble).isInfix
    exact h6.trans (List.suffix_append pre _).isInfix

theorem matchA2_split (s con rest : Str) (h : matchA2 s = some (con, rest)) :
    s = con ++ rest ∧ con ≠ [] ∧ atMstTok <:+: con := by
  rw [matchA2.eq_def] at h
  split at h
  · exact matchA2body_split _ _ con rest (by simp) h
  · exact matchA2body_split _ _ con rest (by simp) h
  · cases h

theorem matchAtMst_split (s con rest : Str)
    (h : matchAtMst s = some (con, rest)) :
    s = con ++ rest ∧ con ≠ [] ∧ strIncludes con atMstTok = true := by
  rw [matchAtMst] at h
  cases hA1 : matchA1 s with
  | some p =>
    rw [hA1] at h
    injection h with h1
    subst h1
    obtain ⟨ha, hb, hc⟩ := matchA1_split s con rest hA1
    exact ⟨ha, hb, (strIncludes_spec _ _).mpr hc⟩
  | none =>
    rw [hA1] at h
    obtain ⟨ha, hb, hc⟩ := matchA2_split s con rest h
    exact ⟨ha, hb, (strIncludes_spec _ _).mpr hc⟩

theorem scanSanF_id (fuel : Nat) :
    ∀ s : Str, strIncludes s atMstTok = false → scanSanF fuel s = s := by
  induction fuel with
  | zero => intro s _; rfl
  | succ f ih =>
    intro s hs
    cases s with
    | nil => rfl
    | cons c t =>
      have hmn : matchAtMst (c :: t) = none := by
        cases hm : matchAtMst (c :: t) with
        | none => rfl
        | some p =>
          obtain ⟨_, _, hc⟩ := matchAtMst_split (c :: t) p.1 p.2 (by rw [hm])
          have hinf : atMstTok <:+: c :: t := by
            obtain ⟨ha, _, _⟩ := matchAtMst_split (c :: t) p.1 p.2 (by rw [hm])
            rw [ha]
            exact ((strIncludes_spec _ _).mp hc).trans
              (List.infix_append [] p.1 p.2 |>.trans (by simp))
          rw [(strIncludes_spec _ _).mpr hinf] at hs
          cases hs
      rw [scanSanF, hmn]
      have ht : strIncludes t atMstTok = false := by
        cases hb : strIncludes t atMstTok with
        | false => rfl
        | true =>
          have := ((strIncludes_spec _ _).mp hb).trans
            (List.suffix_cons c t).isInfix
          rw [(strIncludes_spec _ _).mpr this] at hs
          cases hs
      rw [ih t ht]

theorem sanitize_id_of_no_atMst (s : Str)
    (h : strIncludes s atMstTok = false) : sanitize s = s :=
  scanSanF_id s.length s h

/-- C4 (counterexample): `sanitize` is not idempotent on every string: on
`# @m/u@mst v/st` the single match `/u@mst v/` is removed, the flanks join
to `# @mst`, and a second application removes that as well. -/
theorem sanitize_not_idempotent :
    sanitize (sanitize seamContent) ≠ sanitize seamContent := by decide

/-- C4 (amended): `sanitize` is idempotent on every string whose sanitized
form no longer contains the substring `@mst` (every directive match
contains `@mst`, so such content admits no further match); adversarial
inputs whose removed match splices surrounding text into a fresh `@mst`
token, such as `seamContent`, escape this and a second pass removes more. -/
theorem sanitize_idempotent_amended (x : Str)
    (h : strIncludes (sanitize x) atMstTok = false) :
    sanitize (sanitize x) = sanitize x :=
  sanitize_id_of_no_atMst _ h

/-- Witness for `sanitize_idempotent_amended` at an ordinary directive
content. -/
theorem sanitize_idempotent_amended_witness :
    strIncludes (sanitize plainDirectiveContent) atMstTok = false ∧
      sanitize (sanitize plainDirectiveContent) = sanitize plainDirectiveContent :=
  ⟨by decide, sanitize_idempotent_amended plainDirectiveContent (by decide)⟩

theorem sanitizeRel_scan (fuel : Nat) :
    ∀ s : Str, s.length ≤ fuel → SanitizeRel s (scanSanF fuel s) := by
  induction fuel with
  | zero =>
    intro s hs
    have : s = [] := by
      cases s with
      | nil => rfl
      | cons c t => simp at hs
    subst this
    exact SanitizeRel.nil
  | succ f ih =>
    intro s hs
    cases s with
    | nil => exact SanitizeRel.nil
    | cons c t =>
      rw [scanSanF]
      cases hm : matchAtMst (c :: t) with
      | some p =>
        obtain ⟨ha, hb, _⟩ := matchAtMst_split (c :: t) p.1 p.2 (by rw [hm])
        have hlen : p.2.length ≤ f := by
          have h1 : (c :: t).length = p.1.length + p.2.length := by
            rw [ha, List.length_append]
          have h2 : 1 ≤ p.1.length := by
            cases hp1 : p.1 with
            | nil => exact absurd hp1 hb
            | cons x xs => simp
          simp only [List.length_cons] at h1 hs
          omega
        exact SanitizeRel.strip (c :: t) p.1 p.2 _ (by rw [hm]) (ih p.2 hlen)
      | none =>
        exact SanitizeRel.keep c t _ hm
          (ih t (by simpa using Nat.le_of_succ_le_succ (by simpa using hs)))

/-- C9 (counterexample): a `mstMarkupRegex` match may span a newline (the
greedy `\s*` after `#` swallows the line break before `@mst`), so the line
count is not always preserved; and the sanitized result can itself still
contain a match (the seam content sanitizes to `# @mst`). -/
theorem sanitize_c9_counterexample :
    numLines (sanitize newlineSpanContent) = 2 ∧
    numLines newlineSpanContent = 3 ∧
    hasMstMatch (sanitize seamContent) = true := by decide

/-- C9 (amended): `sanitize` removes exactly the substrings matched by the
left-to-right scan of `mstMarkupRegex` and keeps every other character
unchanged in its original order (`SanitizeRel`), and every removed
substring is a pattern match containing `@mst`; but a match may span a
newline, so the line count is not always preserved, and the result can
still contain a match. -/
theorem sanitize_scan_amended :
    (∀ s : Str, SanitizeRel s (sanitize s)) ∧
    (∀ s con rest : Str, matchAtMst s = some (con, rest) →
      s = con ++ rest ∧ strIncludes con atMstTok = true) := by
  constructor
  · intro s
    exact sanitizeRel_scan s.length s (le_refl _)
  · intro s con rest h
    obtain ⟨ha, _, hc⟩ := matchAtMst_split s con rest h
    exact ⟨ha, hc⟩

/-- Witness for `sanitize_scan_amended` at concrete inputs. -/
theorem sanitize_scan_amended_witness :
    SanitizeRel seamContent (sanitize seamContent) ∧
      ("// @mst x".toList = "// @mst x".toList ++ ([] : Str) ∧
        strIncludes "// @mst x".toList atMstTok = true) :=
  ⟨sanitize_scan_amended.1 seamContent,
    sanitize_scan_amended.2 "// @mst x".toList "// @mst x".toList [] (by decide)⟩

/-! ### Claim C8: whole-file removal precedence (spec-modelled
`updateFiles`) -/

/-- C8: for a file whose content contains the `@mst remove-file` marker,
the (spec-modelled) `updateFiles` reports only the `RemoveFile` directive
for that file and runs no other rewriter on it: in remove mode the file is
deleted outright, in sanitize (`onlyMarkup`) mode it survives with its
content sanitized, and a dry run changes nothing. -/
theorem removeFile_precedence (fs : FileSys) (path : String) (contents : Str)
    (dryRun onlyMarkup : Bool)
    (hl : fs.lookup path = some contents)
    (hm : strIncludes contents REMOVE_FILE = true) :
    (processFile fs path dryRun onlyMarkup).1 = (path, [REMOVE_FILE]) ∧
    (updateFilesModel fs [path] dryRun onlyMarkup).1 = [(path, [REMOVE_FILE])] ∧
    (processFile fs path false false).2 = fsErase fs path ∧
    (processFile fs path false true).2 = fsWrite fs path (sanitize contents) ∧
    (processFile fs path true onlyMarkup).2 = fs := by
  refine ⟨?_, ?_, ?_, ?_, ?_⟩ <;>
    simp [processFile, updateFilesModel, hl, hm]

/-- Witness for `removeFile_precedence` at a one-file file system. -/
theorem removeFile_precedence_witness :
    (processFile [("a.ts", "x // @mst remove-file\ny".toList)] "a.ts"
        false false).1 = ("a.ts", [REMOVE_FILE]) ∧
    (updateFilesModel [("a.ts", "x // @mst remove-file\ny".toList)] ["a.ts"]
        false false).1 = [("a.ts", [REMOVE_FILE])] ∧
    (processFile [("a.ts", "x // @mst remove-file\ny".toList)] "a.ts"
        false false).2 =
      fsErase [("a.ts", "x // @mst remove-file\ny".toList)] "a.ts" ∧
    (processFile [("a.ts", "x // @mst remove-file\ny".toList)] "a.ts"
        false true).2 =
      fsWrite [("a.ts", "x // @mst remove-file\ny".toList)] "a.ts"
        (sanitize ("x // @mst remove-file\ny".toList)) ∧
    (processFile [("a.ts", "x // @mst remove-file\ny".toList)] "a.ts"
        true false).2 = [("a.ts", "x // @mst remove-file\ny".toList)] :=
  removeFile_precedence [("a.ts", "x // @mst remove-file\ny".toList)] "a.ts"
    ("x // @mst remove-file\ny".toList) false false (by decide) (by decide)

/-! ### Claim C10: everything after the initial `return updateFiles({...})`
in `update` is dead code -/

/-- C10: for every file system, path list and flags, `update` returns
exactly the value of the initial `updateFiles({...})` call (modelled as the
thrown result), the file system is whatever that call produced, and the
invocation log records nothing but that call — in particular the statements
after the `return` (the `REMOVE_FILE` precedence branch and the
`Promise.allSettled` per-file loop) never run, so `update` never invokes
`patchMSTObserverBlock`, `mst.remove`, or `mst.sanitize` through that code. -/
theorem update_returns_initial_updateFiles (fs0 : FileSys)
    (filePaths : List String) (dryRun onlyMarkup : Bool) :
    update fs0 filePaths dryRun onlyMarkup =
      (Except.error (updateFilesModel fs0 filePaths dryRun onlyMarkup).1,
        ⟨(updateFilesModel fs0 filePaths dryRun onlyMarkup).2,
          [MstCall.updateFilesCall]⟩) ∧
    MstCall.sanitizeCall ∉ (update fs0 filePaths dryRun onlyMarkup).2.calls ∧
    MstCall.removeCall ∉ (update fs0 filePaths dryRun onlyMarkup).2.calls ∧
    MstCall.patchObserverCall ∉
      (update fs0 filePaths dryRun onlyMarkup).2.calls := by
  refine ⟨rfl, ?_, ?_, ?_⟩ <;>
    · rw [show (update fs0 filePaths dryRun onlyMarkup).2.calls =
          [MstCall.updateFilesCall] from rfl]
      simp
